import Mathlib

/-
Verification of the solana-keypair-scraper pipeline (src/main.rs).

The program walks directory trees up to a depth bound (find_nested_dirs),
scans every discovered directory for files that decode as Solana keypairs
(find_solana_keypairs), deduplicates the records into a BTreeMap from
public key to a BTreeSet of locations, builds a pool of live RPC endpoints,
and queries every key against every live endpoint.

The embedding abstracts the external collaborators at their interfaces:
directories and public keys are opaque identifiers (Nat); a filesystem is a
pair of partial listing functions (returning none when the listing fails,
modelling a read_dir error); decoding a file as a keypair is an opaque
operation recorded per file (some key on success); an RPC call is an opaque
response. Fallible operations return Except Unit, mirroring anyhow Result.
-/

namespace Scraper

/-- A regular file inside a directory: its own path, and the outcome of
attempting to decode it as a keypair (some public key on success, none when
the decode fails). -/
structure FileEntry where
  path : Nat
  decode : Option Nat
deriving DecidableEq

/-- Abstract filesystem. listDir p is the list of subdirectories of p, or
none when the directory listing fails (read_dir error); listFiles p is the
list of regular files directly inside p, or none when that listing fails. -/
structure FS where
  listDir : Nat → Option (List Nat)
  listFiles : Nat → Option (List FileEntry)

/-- The Rust match on a recursive find_nested_dirs result: an Ok result is
used as-is, an Err result is logged and replaced by the empty vector. -/
def nestedOrEmpty : Except Unit (List Nat) → List Nat
  | .ok nested => nested
  | .error _ => []

/-- Embedding of find_nested_dirs (src/main.rs lines 32-57): push the
directory itself, return early when remaining_levels is 0, otherwise list
the subdirectories (propagating a failure of this listing as an error) and
append each subdirectory's recursive result, with a failing recursive call
contributing the empty vector. -/
def find_nested_dirs (fs : FS) (p : Nat) : Nat → Except Unit (List Nat)
  | 0 => .ok [p]
  | n + 1 =>
    match fs.listDir p with
    | none => .error ()
    | some cs =>
      .ok (cs.foldl (fun acc c => acc ++ nestedOrEmpty (find_nested_dirs fs c n)) [p])

/-- Embedding of find_solana_keypairs (src/main.rs lines 59-77): list the
regular files of the directory (propagating a failure of this listing as an
error); for each file that decodes as a keypair push the pair
(file path, public key) — note the pushed location is the file's own path —
and skip files that fail to decode. -/
def find_solana_keypairs (fs : FS) (p : Nat) : Except Unit (List (Nat × Nat)) :=
  match fs.listFiles p with
  | none => .error ()
  | some files =>
    .ok (files.foldl
      (fun acc f =>
        match f.decode with
        | some key => acc ++ [(f.path, key)]
        | none => acc)
      [])

/-- The discovery loop of main (src/main.rs lines 89-92): for each root,
find_nested_dirs is called with the question-mark operator, so a failure on
any root aborts; the per-root results are appended in order. -/
def collectDirs (fs : FS) (depth : Nat) : List Nat → Except Unit (List Nat)
  | [] => .ok []
  | r :: rs =>
    match find_nested_dirs fs r depth with
    | .error e => .error e
    | .ok ds =>
      match collectDirs fs depth rs with
      | .error e => .error e
      | .ok rest => .ok (ds ++ rest)

/-- The scan loop of main (src/main.rs lines 96-100): for each discovered
directory, find_solana_keypairs is called with the question-mark operator,
so a failure on any discovered directory aborts; results are appended. -/
def collectKeys (fs : FS) : List Nat → Except Unit (List (Nat × Nat))
  | [] => .ok []
  | d :: ds =>
    match find_solana_keypairs fs d with
    | .error e => .error e
    | .ok ks =>
      match collectKeys fs ds with
      | .error e => .error e
      | .ok rest => .ok (ks ++ rest)

/-- The fallible part of main up to the key records: discovery over all
roots followed by the scan of every discovered directory. -/
def runScanPhase (fs : FS) (roots : List Nat) (depth : Nat) :
    Except Unit (List (Nat × Nat)) :=
  match collectDirs fs depth roots with
  | .error e => .error e
  | .ok dirs => collectKeys fs dirs

/-- Insertion into a BTreeSet of Nat, modelled as a strictly ascending list:
inserting an element already present leaves the list unchanged. -/
def setInsert (x : Nat) : List Nat → List Nat
  | [] => [x]
  | y :: ys =>
    if x < y then x :: y :: ys
    else if x = y then y :: ys
    else y :: setInsert x ys

/-- Insertion into a BTreeMap from key to BTreeSet of locations, modelled as
an association list strictly ascending in the key: the Rust
entry(key).or_insert(empty set).insert(loc). -/
def mapInsert (key loc : Nat) : List (Nat × List Nat) → List (Nat × List Nat)
  | [] => [(key, [loc])]
  | (k, s) :: rest =>
    if key < k then (key, [loc]) :: (k, s) :: rest
    else if key = k then (k, setInsert loc s) :: rest
    else (k, s) :: mapInsert key loc rest

/-- The dedup loop of main (src/main.rs lines 102-109): fold every record
(location, key) into the BTreeMap, inserting the record's location — which
is the path produced by find_solana_keypairs — into the key's set. -/
def buildIndex (records : List (Nat × Nat)) : List (Nat × List Nat) :=
  records.foldl (fun m r => mapInsert r.2 r.1 m) []

/-- The two counts logged by main (src/main.rs lines 111-115): the size of
the deduplicated map and the length of the raw record list. -/
def reportedCounts (records : List (Nat × Nat)) : Nat × Nat :=
  ((buildIndex records).length, records.length)

/-- The RPC endpoint pool loop of main (src/main.rs lines 121-133): for each
candidate URL, the liveness probe (get_latest_blockhash) either succeeds and
the client is pushed, or fails and the URL is skipped with a warning. The
probe outcome is abstracted as a Bool per URL. -/
def buildPool (probe : Nat → Bool) (urls : List Nat) : List Nat :=
  urls.foldl (fun acc u => if probe u then acc ++ [u] else acc) []

/-- The outcome of a raw RPC account-metadata call: a successful response
with lamport balance and owner, an account-not-found response, or a
transport or RPC-level failure. -/
inductive RpcResponse where
  | success (lamports : Nat) (owner : Nat)
  | notFound
  | transportFailure
deriving DecidableEq

/-- The get_account client call as the code sees it: a Result that is Ok
only for a successful response; both an account-not-found response and a
transport failure surface as Err. -/
def getAccountResult : RpcResponse → Except Unit (Nat × Nat)
  | .success lamports owner => .ok (lamports, owner)
  | .notFound => .error ()
  | .transportFailure => .error ()

/-- One line of the final report for a (key, endpoint) pair: a balance line
logged at info level, or an absence line logged at debug level. -/
inductive ReportEntry where
  | balance (key : Nat) (endpoint : Nat) (lamports : Nat) (owner : Nat)
  | absent (key : Nat) (endpoint : Nat)
deriving DecidableEq

/-- The match in main's report loop (src/main.rs lines 140-160): an Ok
metadata result produces a balance line, an Err produces an absence line. -/
def reportLine (key endpoint : Nat) (r : Except Unit (Nat × Nat)) : ReportEntry :=
  match r with
  | .ok (lamports, owner) => .balance key endpoint lamports owner
  | .error _ => .absent key endpoint

/-- The per-key query fan-out of main (src/main.rs lines 135-160): issue
get_account on every live endpoint, join all results (join_all preserves the
order of the futures it was given), zip the endpoint list with the joined
results, and emit one report line per pair. -/
def queryKey (respond : Nat → Nat → RpcResponse) (key : Nat) (eps : List Nat) :
    List ReportEntry :=
  (eps.zip (eps.map fun ep => getAccountResult (respond key ep))).map
    fun pr => reportLine key pr.1 pr.2

/-- The endpoint a report entry is about. -/
def entryEndpoint : ReportEntry → Nat
  | .balance _ ep _ _ => ep
  | .absent _ ep => ep

theorem fnd_zero (fs : FS) (p : Nat) : find_nested_dirs fs p 0 = .ok [p] := rfl

theorem fnd_error_iff (fs : FS) (p d : Nat) :
    find_nested_dirs fs p d = .error () ↔ d ≠ 0 ∧ fs.listDir p = none := by
  cases d with
  | zero => simp [find_nested_dirs]
  | succ n =>
    cases h : fs.listDir p <;> simp [find_nested_dirs, h]

theorem fsk_error_iff (fs : FS) (p : Nat) :
    find_solana_keypairs fs p = .error () ↔ fs.listFiles p = none := by
  cases h : fs.listFiles p <;> simp [find_solana_keypairs, h]

theorem mem_foldl_append (g : Nat → List Nat) (cs : List Nat) :
    ∀ (init : List Nat) (q : Nat),
      q ∈ cs.foldl (fun acc c => acc ++ g c) init ↔ q ∈ init ∨ ∃ c ∈ cs, q ∈ g c := by
  induction cs with
  | nil => simp
  | cons c cs ih =>
    intro init q
    rw [List.foldl_cons, ih]
    simp [List.mem_append, or_assoc]

/-- Reachability as the spec states it (section 8): a directory is in the
claimed result set of discover(root, d) when it can be reached from root by
following at most d levels of subdirectory links, excluding any subtree
rooted at a directory that fails to list — so every directory on the
witnessing chain, the reached one included, must list successfully. -/
inductive SpecReach (fs : FS) : Nat → Nat → Nat → Prop
  | here (p d : Nat) : fs.listDir p ≠ none → SpecReach fs p d p
  | step {p d q : Nat} {cs : List Nat} {c : Nat} :
      fs.listDir p = some cs → c ∈ cs → SpecReach fs c d q →
      SpecReach fs p (d + 1) q

/-- Reachability as the code realises it: every directory strictly before
the end of the chain must list successfully (it was enumerated), while the
final directory must list successfully only when it sits strictly above the
depth limit — a directory reached at exactly the depth limit is returned
without ever being listed. -/
inductive WalkMem (fs : FS) : Nat → Nat → Nat → Prop
  | here (p d : Nat) : WalkMem fs p d p
  | step {p d q : Nat} {cs : List Nat} {c : Nat} :
      fs.listDir p = some cs → c ∈ cs → (d = 0 ∨ fs.listDir c ≠ none) →
      WalkMem fs c d q → WalkMem fs p (d + 1) q

theorem walkMem_zero (fs : FS) (p q : Nat) : WalkMem fs p 0 q ↔ q = p := by
  constructor
  · intro h
    cases h
    rfl
  · rintro rfl
    exact WalkMem.here _ _

theorem walkMem_succ (fs : FS) (p n q : Nat) :
    WalkMem fs p (n + 1) q ↔
      q = p ∨ ∃ cs c, fs.listDir p = some cs ∧ c ∈ cs ∧
        (n = 0 ∨ fs.listDir c ≠ none) ∧ WalkMem fs c n q := by
  constructor
  · intro h
    cases h with
    | here => exact Or.inl rfl
    | step hcs hc hguard hrest => exact Or.inr ⟨_, _, hcs, hc, hguard, hrest⟩
  · rintro (rfl | ⟨cs, c, hcs, hc, hguard, hrest⟩)
    · exact WalkMem.here _ _
    · exact WalkMem.step hcs hc hguard hrest

theorem fnd_mem_iff (fs : FS) :
    ∀ d p, (d = 0 ∨ fs.listDir p ≠ none) →
      ∃ l, find_nested_dirs fs p d = .ok l ∧ (d = 0 → l = [p]) ∧ p ∈ l ∧
        ∀ q, q ∈ l ↔ WalkMem fs p d q := by
  intro d
  induction d with
  | zero =>
    intro p _
    refine ⟨[p], rfl, fun _ => rfl, by simp, fun q => ?_⟩
    simp [walkMem_zero]
  | succ n ih =>
    intro p hp
    obtain ⟨cs, hcs⟩ : ∃ cs, fs.listDir p = some cs := by
      rcases hp with h | h
      · exact absurd h (Nat.succ_ne_zero n)
      · cases hh : fs.listDir p with
        | none => exact absurd hh h
        | some cs => exact ⟨cs, rfl⟩
    refine ⟨cs.foldl (fun acc c => acc ++ nestedOrEmpty (find_nested_dirs fs c n)) [p],
      ?_, ?_, ?_, ?_⟩
    · simp only [find_nested_dirs, hcs]
    · intro h
      exact absurd h (Nat.succ_ne_zero n)
    · exact (mem_foldl_append _ cs [p] p).mpr (Or.inl (by simp))
    · intro q
      rw [mem_foldl_append, walkMem_succ]
      constructor
      · rintro (hq | ⟨c, hc, hq⟩)
        · exact Or.inl (by simpa using hq)
        · cases hfind : find_nested_dirs fs c n with
          | error e =>
            rw [hfind] at hq
            simp [nestedOrEmpty] at hq
          | ok lc =>
            have hguard : n = 0 ∨ fs.listDir c ≠ none := by
              by_contra hcon
              push_neg at hcon
              have herr := (fnd_error_iff fs c n).mpr ⟨hcon.1, hcon.2⟩
              simp [hfind] at herr
            obtain ⟨l2, hl2, _, _, hmem⟩ := ih c hguard
            rw [hfind] at hl2
            have hl2e : lc = l2 := by
              simpa using hl2
            rw [hfind] at hq
            refine Or.inr ⟨cs, c, hcs, hc, hguard, (hmem q).mp ?_⟩
            rw [← hl2e]
            simpa [nestedOrEmpty] using hq
      · rintro (rfl | ⟨cs2, c, hcs2, hc, hguard, hw⟩)
        · exact Or.inl (by simp)
        · rw [hcs] at hcs2
          injection hcs2 with h
          subst h
          obtain ⟨lc, hlc, _, _, hmem⟩ := ih c hguard
          refine Or.inr ⟨c, hc, ?_⟩
          rw [hlc]
          simpa [nestedOrEmpty] using (hmem q).mpr hw

theorem collectDirs_error_iff (fs : FS) (depth : Nat) :
    ∀ roots : List Nat, collectDirs fs depth roots = .error () ↔
      ∃ r ∈ roots, depth ≠ 0 ∧ fs.listDir r = none := by
  intro roots
  induction roots with
  | nil => simp [collectDirs]
  | cons r rs ih =>
    simp only [collectDirs]
    cases hr : find_nested_dirs fs r depth with
    | error e =>
      cases e
      have hr2 := (fnd_error_iff fs r depth).mp hr
      simp only [true_iff]
      exact ⟨r, by simp, hr2⟩
    | ok ds =>
      have hr2 : ¬(depth ≠ 0 ∧ fs.listDir r = none) := by
        intro hcon
        have := (fnd_error_iff fs r depth).mpr hcon
        simp [hr] at this
      cases hrest : collectDirs fs depth rs with
      | error e =>
        cases e
        have := ih.mp hrest
        obtain ⟨r2, hr2m, hr2p⟩ := this
        simp only [true_iff]
        exact ⟨r2, by simp [hr2m], hr2p⟩
      | ok rest =>
        simp only [reduceCtorEq, false_iff, not_exists]
        intro x hx
        obtain ⟨hxm, hxp⟩ := hx
        rcases List.mem_cons.mp hxm with rfl | hx2
        · exact hr2 hxp
        · have := ih.mpr ⟨x, hx2, hxp⟩
          simp [hrest] at this

theorem collectKeys_error_iff (fs : FS) :
    ∀ dirs : List Nat, collectKeys fs dirs = .error () ↔
      ∃ d ∈ dirs, fs.listFiles d = none := by
  intro dirs
  induction dirs with
  | nil => simp [collectKeys]
  | cons d ds ih =>
    simp only [collectKeys]
    cases hd : find_solana_keypairs fs d with
    | error e =>
      cases e
      have hd2 := (fsk_error_iff fs d).mp hd
      simp only [true_iff]
      exact ⟨d, by simp, hd2⟩
    | ok ks =>
      have hd2 : fs.listFiles d ≠ none := by
        intro hcon
        have := (fsk_error_iff fs d).mpr hcon
        simp [hd] at this
      cases hrest : collectKeys fs ds with
      | error e =>
        cases e
        obtain ⟨d2, hd2m, hd2p⟩ := ih.mp hrest
        simp only [true_iff]
        exact ⟨d2, by simp [hd2m], hd2p⟩
      | ok rest =>
        simp only [reduceCtorEq, false_iff, not_exists]
        intro x hx
        obtain ⟨hxm, hxp⟩ := hx
        rcases List.mem_cons.mp hxm with rfl | hx2
        · exact hd2 hxp
        · have := ih.mpr ⟨x, hx2, hxp⟩
          simp [hrest] at this

theorem runScanPhase_error_iff (fs : FS) (roots : List Nat) (depth : Nat) :
    runScanPhase fs roots depth = .error () ↔
      (∃ r ∈ roots, depth ≠ 0 ∧ fs.listDir r = none) ∨
      ∃ dirs, collectDirs fs depth roots = .ok dirs ∧
        ∃ d ∈ dirs, fs.listFiles d = none := by
  unfold runScanPhase
  cases h : collectDirs fs depth roots with
  | error e =>
    cases e
    have hroot := (collectDirs_error_iff fs depth roots).mp h
    simp only [true_iff]
    exact Or.inl hroot
  | ok dirs =>
    have hnoroot : ¬∃ r ∈ roots, depth ≠ 0 ∧ fs.listDir r = none := by
      intro hcon
      have := (collectDirs_error_iff fs depth roots).mpr hcon
      simp [h] at this
    rw [collectKeys_error_iff]
    constructor
    · intro hk
      exact Or.inr ⟨dirs, rfl, hk⟩
    · rintro (hcon | ⟨dirs2, hdirs2, hk⟩)
      · exact absurd hcon hnoroot
      · obtain rfl : dirs = dirs2 := by simpa using hdirs2
        exact hk

theorem keypair_fold_eq (files : List FileEntry) :
    ∀ init : List (Nat × Nat),
      files.foldl
        (fun acc f =>
          match f.decode with
          | some key => acc ++ [(f.path, key)]
          | none => acc)
        init
      = init ++ files.filterMap (fun f => f.decode.map fun key => (f.path, key)) := by
  induction files with
  | nil => simp
  | cons f fsx ih =>
    intro init
    cases h : f.decode with
    | none => simp [List.foldl_cons, h, List.filterMap_cons, ih]
    | some key => simp [List.foldl_cons, h, List.filterMap_cons, ih]

theorem fsk_ok (fs : FS) (p : Nat) (files : List FileEntry)
    (h : fs.listFiles p = some files) :
    find_solana_keypairs fs p =
      .ok (files.filterMap fun f => f.decode.map fun key => (f.path, key)) := by
  simp only [find_solana_keypairs, h]
  rw [keypair_fold_eq]
  simp

theorem pool_fold_eq (probe : Nat → Bool) (urls : List Nat) :
    ∀ init : List Nat,
      urls.foldl (fun acc u => if probe u then acc ++ [u] else acc) init
        = init ++ urls.filter probe := by
  induction urls with
  | nil => simp
  | cons u us ih =>
    intro init
    cases h : probe u <;> simp [List.foldl_cons, h, List.filter_cons, ih]

theorem buildPool_eq_filter (probe : Nat → Bool) (urls : List Nat) :
    buildPool probe urls = urls.filter probe := by
  unfold buildPool
  rw [pool_fold_eq]
  simp

theorem entryEndpoint_reportLine (key ep : Nat) (r : Except Unit (Nat × Nat)) :
    entryEndpoint (reportLine key ep r) = ep := by
  cases r with
  | ok v =>
    obtain ⟨lamports, owner⟩ := v
    rfl
  | error e => rfl

theorem queryKey_endpoint_order (respond : Nat → Nat → RpcResponse) (key : Nat)
    (eps : List Nat) : (queryKey respond key eps).map entryEndpoint = eps := by
  unfold queryKey
  rw [List.map_map]
  have h1 : ∀ pr ∈ eps.zip (eps.map fun ep => getAccountResult (respond key ep)),
      (entryEndpoint ∘ fun pr => reportLine key pr.1 pr.2) pr = Prod.fst pr := by
    intro pr _
    exact entryEndpoint_reportLine key pr.1 pr.2
  rw [List.map_congr_left h1]
  exact List.map_fst_zip _ _ (by simp)

theorem mem_setInsert (x : Nat) : ∀ (s : List Nat) (y : Nat),
    y ∈ setInsert x s ↔ y = x ∨ y ∈ s := by
  intro s
  induction s with
  | nil => simp [setInsert]
  | cons z zs ih =>
    intro y
    rcases lt_trichotomy x z with h1 | h1 | h1
    · simp only [setInsert]
      rw [if_pos h1]
      simp only [List.mem_cons]
    · subst h1
      simp only [setInsert, lt_self_iff_false, if_false, if_true, List.mem_cons]
      tauto
    · have hnlt : ¬x < z := by omega
      have hne : x ≠ z := by omega
      simp only [setInsert]
      rw [if_neg hnlt, if_neg hne]
      simp only [List.mem_cons, ih]
      tauto

theorem keys_mapInsert (key loc : Nat) : ∀ (m : List (Nat × List Nat)) (k : Nat),
    k ∈ (mapInsert key loc m).map Prod.fst ↔ k = key ∨ k ∈ m.map Prod.fst := by
  intro m
  induction m with
  | nil => simp [mapInsert]
  | cons e rest ih =>
    obtain ⟨k2, s⟩ := e
    intro k
    rcases lt_trichotomy key k2 with h1 | h1 | h1
    · simp only [mapInsert]
      rw [if_pos h1]
      simp only [List.map_cons, List.mem_cons]
    · subst h1
      simp only [mapInsert, lt_self_iff_false, if_false, if_true, List.map_cons,
        List.mem_cons]
      tauto
    · have hnlt : ¬key < k2 := by omega
      have hne : key ≠ k2 := by omega
      simp only [mapInsert]
      rw [if_neg hnlt, if_neg hne]
      simp only [List.map_cons, List.mem_cons, ih]
      tauto

theorem sorted_mapInsert (key loc : Nat) : ∀ m : List (Nat × List Nat),
    ((m.map Prod.fst).Sorted (· < ·)) →
      (((mapInsert key loc m).map Prod.fst).Sorted (· < ·)) := by
  intro m
  induction m with
  | nil =>
    intro _
    simp [mapInsert]
  | cons e rest ih =>
    obtain ⟨k2, s⟩ := e
    intro hs
    rw [List.map_cons, List.sorted_cons] at hs
    rcases lt_trichotomy key k2 with h1 | h1 | h1
    · simp only [mapInsert]
      rw [if_pos h1, List.map_cons, List.sorted_cons]
      constructor
      · intro b hb
        rw [List.map_cons] at hb
        rcases List.mem_cons.mp hb with rfl | hb2
        · exact h1
        · exact lt_trans h1 (hs.1 b hb2)
      · rw [List.map_cons, List.sorted_cons]
        exact hs
    · subst h1
      simp only [mapInsert, lt_self_iff_false, if_false, if_true, List.map_cons,
        List.sorted_cons]
      exact hs
    · have hnlt : ¬key < k2 := by omega
      have hne : key ≠ k2 := by omega
      simp only [mapInsert]
      rw [if_neg hnlt, if_neg hne, List.map_cons, List.sorted_cons]
      refine ⟨?_, ih hs.2⟩
      intro b hb
      rcases (keys_mapInsert key loc rest b).mp hb with rfl | hb2
      · exact h1
      · exact hs.1 b hb2

theorem foldl_mapInsert_sorted (records : List (Nat × Nat)) :
    ∀ m : List (Nat × List Nat), ((m.map Prod.fst).Sorted (· < ·)) →
      (((records.foldl (fun m r => mapInsert r.2 r.1 m) m).map Prod.fst).Sorted
        (· < ·)) := by
  induction records with
  | nil =>
    intro m h
    simpa using h
  | cons r rs ih =>
    intro m h
    exact ih _ (sorted_mapInsert r.2 r.1 m h)

theorem foldl_mapInsert_keys (records : List (Nat × Nat)) :
    ∀ (m : List (Nat × List Nat)) (k : Nat),
      k ∈ (records.foldl (fun m r => mapInsert r.2 r.1 m) m).map Prod.fst ↔
        k ∈ m.map Prod.fst ∨ k ∈ records.map Prod.snd := by
  induction records with
  | nil => simp
  | cons r rs ih =>
    intro m k
    rw [List.foldl_cons, ih, keys_mapInsert]
    simp only [List.map_cons, List.mem_cons]
    tauto

theorem buildIndex_keys_sorted (records : List (Nat × Nat)) :
    ((buildIndex records).map Prod.fst).Sorted (· < ·) :=
  foldl_mapInsert_sorted records [] (by simp)

theorem buildIndex_keys_mem (records : List (Nat × Nat)) (k : Nat) :
    k ∈ (buildIndex records).map Prod.fst ↔ k ∈ records.map Prod.snd := by
  have h := foldl_mapInsert_keys records [] k
  simpa [buildIndex] using h

theorem buildIndex_length (records : List (Nat × Nat)) :
    (buildIndex records).length = (records.map Prod.snd).dedup.length := by
  have hnd : ((buildIndex records).map Prod.fst).Nodup :=
    (buildIndex_keys_sorted records).imp (fun h => ne_of_lt h)
  have h1 : ((buildIndex records).map Prod.fst).toFinset
      = (records.map Prod.snd).toFinset := by
    ext k
    simp only [List.mem_toFinset]
    exact buildIndex_keys_mem records k
  calc (buildIndex records).length
      = ((buildIndex records).map Prod.fst).length := (List.length_map _ _).symm
    _ = ((buildIndex records).map Prod.fst).dedup.length := by
        rw [List.dedup_eq_self.mpr hnd]
    _ = ((buildIndex records).map Prod.fst).toFinset.card :=
        (List.card_toFinset _).symm
    _ = (records.map Prod.snd).toFinset.card := by rw [h1]
    _ = (records.map Prod.snd).dedup.length := List.card_toFinset _

/-- Scan as the spec describes it (sections 3 and 4.2): a KeypairRecord is a
pair (source directory, public key), so every decodable file contributes the
containing directory p, not the file's own path. Stated from the spec's
words for comparison with find_solana_keypairs. -/
def specScanRecords (fs : FS) (p : Nat) : Except Unit (List (Nat × Nat)) :=
  match fs.listFiles p with
  | none => .error ()
  | some files =>
    .ok (files.filterMap fun f => f.decode.map fun key => (p, key))

/-- Directory 0 holds two keypair files, paths 1 and 2, both decoding to the
public key 5; no directory has subdirectories. -/
def fsDup : FS where
  listDir := fun _ => none
  listFiles := fun p => if p = 0 then some [⟨1, some 5⟩, ⟨2, some 5⟩] else none

/-- Root 0 lists to the single subdirectory 1 and its file listing succeeds
(and is empty); directory 1 fails every listing. -/
def fsScanAbort : FS where
  listDir := fun p => if p = 0 then some [1] else none
  listFiles := fun p => if p = 0 then some [] else none

/-- Root 0 lists to the single subdirectory 1; directory 1 fails to list. -/
def fsFrontier : FS where
  listDir := fun p => if p = 0 then some [1] else none
  listFiles := fun _ => none

/-- Directory 0 holds files 1 and 3 decoding to the same key 5 and file 2
that fails to decode. -/
def fsDemo : FS where
  listDir := fun _ => none
  listFiles := fun p =>
    if p = 0 then some [⟨1, some 5⟩, ⟨2, none⟩, ⟨3, some 5⟩] else none

/-- C1: the claim says the index maps each key to the set of distinct
containing directories, with same-key files inside one directory collapsing
to one entry. The code inserts the file's own path (find_solana_keypairs
pushes file.path()) into the set, so two files encoding key 5 inside the
single directory 0 yield the location set containing the file paths 1 and 2
— two entries — while the index over the spec's directory-carrying records
yields the single directory 0. This contradicts the code's own log line,
which labels these set sizes directory counts. -/
theorem index_locations_are_file_paths :
    find_solana_keypairs fsDup 0 = .ok [(1, 5), (2, 5)] ∧
    buildIndex [(1, 5), (2, 5)] = [(5, [1, 2])] ∧
    specScanRecords fsDup 0 = .ok [(0, 5), (0, 5)] ∧
    buildIndex [(0, 5), (0, 5)] = [(5, [0])] ∧
    ([(5, [1, 2])] : List (Nat × List Nat)) ≠ [(5, [0])] :=
  ⟨rfl, rfl, rfl, rfl, by decide⟩

/-- C2 counterexample: the root 0 lists successfully in both senses, yet the
run fails as a whole, because the scan phase hits the discovered directory 1
— included at the depth frontier without being listed — whose file listing
fails, and main propagates that error with the question-mark operator. -/
theorem scan_phase_abort_cex :
    fsScanAbort.listDir 0 = some [1] ∧ fsScanAbort.listFiles 0 = some [] ∧
    runScanPhase fsScanAbort [0] 1 = .error () :=
  ⟨rfl, rfl, rfl⟩

/-- C2 (amended): the run fails as a whole exactly when either listing some
user-specified root fails during discovery (at nonzero depth), or the file
listing of some discovered directory fails during the keypair-scan phase;
listing failures of non-root directories during the discovery phase itself
are absorbed. -/
theorem run_error_characterization (fs : FS) (roots : List Nat) (depth : Nat) :
    runScanPhase fs roots depth = .error () ↔
      (∃ r ∈ roots, depth ≠ 0 ∧ fs.listDir r = none) ∨
      ∃ dirs, collectDirs fs depth roots = .ok dirs ∧
        ∃ d ∈ dirs, fs.listFiles d = none :=
  runScanPhase_error_iff fs roots depth

/-- C3 counterexample: with root 0 listable and subdirectory 1 unlistable,
discover at depth 1 returns the directory 1, although the claim's set —
reachable within one level excluding any subtree rooted at a directory that
fails to list — excludes it, because 1 itself fails to list. -/
theorem frontier_dir_cex :
    fsFrontier.listDir 0 = some [1] ∧
    find_nested_dirs fsFrontier 0 1 = .ok [0, 1] ∧
    ¬SpecReach fsFrontier 0 1 1 := by
  refine ⟨rfl, rfl, ?_⟩
  intro h
  cases h with
  | step hcs hc hrest =>
    have hcse : fsFrontier.listDir 0 = some [1] := rfl
    rw [hcse] at hcs
    injection hcs with h2
    subst h2
    rcases List.mem_singleton.mp hc with rfl
    cases hrest with
    | here _ _ hn => exact hn rfl

/-- C3 (amended): for every root whose listing succeeds and every depth d,
discover succeeds and returns exactly the directories reachable from the
root within d subdirectory steps along chains whose non-final directories
all list successfully and whose final directory either lists successfully
or sits at exactly depth d (the depth frontier is returned without being
listed); the root is always returned, and depth 0 returns exactly the
root. -/
theorem discover_set_characterization (fs : FS) (root d : Nat)
    (h : d = 0 ∨ fs.listDir root ≠ none) :
    ∃ l, find_nested_dirs fs root d = .ok l ∧ (d = 0 → l = [root]) ∧ root ∈ l ∧
      ∀ q, q ∈ l ↔ WalkMem fs root d q :=
  fnd_mem_iff fs d root h

/-- Witness for the C3 characterization at a concrete filesystem. -/
theorem discover_set_characterization_witness :
    ∃ l, find_nested_dirs fsFrontier 0 1 = .ok l ∧ ((1 : Nat) = 0 → l = [0]) ∧
      0 ∈ l ∧ ∀ q, q ∈ l ↔ WalkMem fsFrontier 0 1 q :=
  discover_set_characterization fsFrontier 0 1 (Or.inr (by decide))

/-- C4: find_nested_dirs returns an error exactly when the depth is nonzero
and the listing of the directory it was called on — the root of its walk —
fails; a non-root directory whose listing fails, reached with at least one
remaining level, contributes the empty list to its parent and the walk
continues. -/
theorem discover_error_only_root (fs : FS) (p d : Nat) :
    (find_nested_dirs fs p d = .error () ↔ d ≠ 0 ∧ fs.listDir p = none) ∧
    ∀ n c, 1 ≤ n → fs.listDir c = none →
      nestedOrEmpty (find_nested_dirs fs c n) = [] := by
  refine ⟨fnd_error_iff fs p d, ?_⟩
  intro n c hn hc
  have herr : find_nested_dirs fs c n = .error () :=
    (fnd_error_iff fs c n).mpr ⟨by omega, hc⟩
  rw [herr]
  rfl

/-- C5: for every directory whose file listing succeeds, the scan returns Ok
with exactly one record (file path, key) per file that decodes as a keypair
— files with equal keys each keep their own record — and files that fail to
decode are dropped without failing the scan. -/
theorem scan_records_decodable_files (fs : FS) (p : Nat)
    (files : List FileEntry) (h : fs.listFiles p = some files) :
    find_solana_keypairs fs p =
      .ok (files.filterMap fun f => f.decode.map fun key => (f.path, key)) :=
  fsk_ok fs p files h

/-- Witness for C5 at a concrete directory: two decodable files with the
same key each yield a record, and the undecodable file is dropped. -/
theorem scan_records_decodable_files_witness :
    find_solana_keypairs fsDemo 0 =
      .ok (([⟨1, some 5⟩, ⟨2, none⟩, ⟨3, some 5⟩] : List FileEntry).filterMap
        fun f => f.decode.map fun key => (f.path, key)) :=
  scan_records_decodable_files fsDemo 0 [⟨1, some 5⟩, ⟨2, none⟩, ⟨3, some 5⟩] rfl

/-- C6: building the endpoint pool is total (it returns a plain list) and
yields exactly the candidate URLs whose probe succeeds, in particular the
empty pool when every probe fails; membership depends only on the probe
outcomes. -/
theorem pool_probe_subset (probe : Nat → Bool) (urls : List Nat) :
    buildPool probe urls = urls.filter probe ∧
    (∀ u, u ∈ buildPool probe urls ↔ u ∈ urls ∧ probe u = true) ∧
    buildPool (fun _ => false) urls = [] := by
  refine ⟨buildPool_eq_filter probe urls, ?_, ?_⟩
  · intro u
    rw [buildPool_eq_filter]
    exact List.mem_filter
  · rw [buildPool_eq_filter]
    simp

/-- C7: an account-not-found response and a transport-level failure produce
the identical absent report line — never an error — and a key queried
against zero live endpoints produces zero report entries. -/
theorem absent_outcomes_identical (respond : Nat → Nat → RpcResponse)
    (key ep : Nat) :
    reportLine key ep (getAccountResult .notFound) = .absent key ep ∧
    reportLine key ep (getAccountResult .transportFailure) = .absent key ep ∧
    reportLine key ep (getAccountResult .notFound)
      = reportLine key ep (getAccountResult .transportFailure) ∧
    queryKey respond key [] = [] :=
  ⟨rfl, rfl, rfl, rfl⟩

/-- C8: the keys of the deduplicated index are iterated in strictly
ascending key order (the BTreeMap order), not insertion order, and for one
key the report lines come per endpoint in exactly the endpoint-list order
(join_all preserves the order of the futures it is given). -/
theorem report_order_deterministic (records : List (Nat × Nat))
    (respond : Nat → Nat → RpcResponse) (key : Nat) (eps : List Nat) :
    ((buildIndex records).map Prod.fst).Sorted (· < ·) ∧
    (queryKey respond key eps).map entryEndpoint = eps :=
  ⟨buildIndex_keys_sorted records, queryKey_endpoint_order respond key eps⟩

/-- C9: building the index is a total function, and the two logged counts
are the number of distinct public keys among the records (the index size)
and the total number of records processed. -/
theorem dedup_counts_reported (records : List (Nat × Nat)) :
    reportedCounts records
      = ((records.map Prod.snd).dedup.length, records.length) := by
  unfold reportedCounts
  rw [buildIndex_length]

/-- C10: at depth 0, find_nested_dirs consults the filesystem not at all —
the equation holds for every filesystem, a filesystem on which every
listing of the path fails included — and returns Ok [root]. -/
theorem depth_zero_returns_root (fs : FS) (p : Nat) :
    find_nested_dirs fs p 0 = .ok [p] :=
  rfl

end Scraper
